import Mathlib

/-!
# Request modifiers of the lasso client (`pkg/client/options.go`)

A shallow embedding of `sanitizeHeaderKey`, `SetWarningHandler` and
`Impersonate`, followed by the properties established about them.

Go strings are byte sequences, so a string is a list of bytes and a byte is a
number below 256.  The request object and the header-name constants belong to
the transport library; they are modelled separately and marked as such.
-/

namespace Lasso

/-! ## Bytes and strings -/

/-- A Go `byte` (`uint8`). -/
abbrev Byte := Fin 256

/-- A Go `string`: an immutable sequence of bytes. -/
abbrev GoString := List Byte

/-- The bytes of a string literal, UTF-8 encoded as in Go source text. -/
def goBytes (s : String) : GoString :=
  (s.data.flatMap String.utf8EncodeChar).map (fun u => u.val)

/-! ## `fmt.Fprintf(&buf, "%%%02X", b)` -/

/-- The digit table `udigits` used by Go's `fmt` for the verb `X`. -/
def udigits : GoString :=
  [0x30, 0x31, 0x32, 0x33, 0x34, 0x35, 0x36, 0x37, 0x38, 0x39,
   0x41, 0x42, 0x43, 0x44, 0x45, 0x46]

/-- The digit loop of `fmt`'s integer formatter in base 16
(`for u >= 16 { buf[i] = digits[u&0xF]; u >>= 4 }`); digits are written from
the end of the buffer, so each new digit goes in front.  The first argument
bounds the number of iterations. -/
def fmtHexLoop : Nat → Nat → GoString → Nat × GoString
  | 0, u, buf => (u, buf)
  | fuel + 1, u, buf =>
    if 16 ≤ u then fmtHexLoop fuel (u / 16) (udigits.getD (u % 16) 0 :: buf)
    else (u, buf)

/-- The verb `%02X` applied to an unsigned integer: upper-case hexadecimal
digits, left-padded with `0` to the width 2. -/
def fmt02X (u : Nat) : GoString :=
  let r := fmtHexLoop u u []
  let buf := udigits.getD r.1 0 :: r.2
  List.replicate (2 - buf.length) 0x30 ++ buf

/-! ## `sanitizeHeaderKey` -/

/-- The bytes listed in the `case` of the `switch` in `sanitizeHeaderKey`:
`!  #  $  &  '  *  +  -  .  ^  _  backquote  |  ~`. -/
def switchCase : List Byte :=
  [0x21, 0x23, 0x24, 0x26, 0x27, 0x2A, 0x2B, 0x2D, 0x2E, 0x5E, 0x5F, 0x60, 0x7C, 0x7E]

/-- What one pass through the body of the `for` loop appends to `buf` for the
byte `b = s[i]`. -/
def loopBody (b : Byte) : GoString :=
  if b ∈ switchCase then
    -- valid non alpha numeric characters of RFC 7230, section 3.2.6
    [b]
  else if ((0x61 : Byte) ≤ b ∧ b ≤ 0x7A) ∨ ((0x30 : Byte) ≤ b ∧ b ≤ 0x39) then
    [b]
  else if (0x41 : Byte) ≤ b ∧ b ≤ 0x5A then
    -- b += 'a' - 'A', in uint8 arithmetic
    [⟨(b.val + (0x61 - 0x41)) % 256, Nat.mod_lt _ (by decide)⟩]
  else
    -- %-encode bytes that should be escaped
    0x25 :: fmt02X b.val

/-- The loop `for i := 0; i < len(s); i++` of `sanitizeHeaderKey`, over the
bytes not yet visited, with the contents of the `strings.Builder`. -/
def sanitizeLoop : GoString → GoString → GoString
  | [], buf => buf
  | b :: rest, buf => sanitizeLoop rest (buf ++ loopBody b)

/-- The function `sanitizeHeaderKey`. -/
def sanitizeHeaderKey (s : GoString) : GoString :=
  sanitizeLoop s []

/-! ## The per-byte description of the encoding -/

/-- The fixed safe set, as the specification lists it. -/
def safeSet : List Byte := goBytes "!#$&'*+-.^_`|~"

/-- ASCII upper-case letters. -/
def upperLetters : List Byte := goBytes "ABCDEFGHIJKLMNOPQRSTUVWXYZ"

/-- ASCII lower-case letters. -/
def lowerLetters : List Byte := goBytes "abcdefghijklmnopqrstuvwxyz"

/-- ASCII digits. -/
def asciiDigits : List Byte := goBytes "0123456789"

/-- The lower-case letter of an upper-case letter; other bytes are kept. -/
def foldByte (b : Byte) : Byte :=
  lowerLetters.getD (upperLetters.indexOf b) b

/-- The upper-case hexadecimal digit of a number below 16. -/
def hexDigitUpper (d : Nat) : Byte :=
  (goBytes "0123456789ABCDEF").getD d 0

/-- The escape triplet of a byte: `%` and its two upper-case hex digits. -/
def percentTriplet (b : Byte) : GoString :=
  [0x25, hexDigitUpper (b.val / 16), hexDigitUpper (b.val % 16)]

/-- A byte that is copied unchanged: safe set, lower-case letter or digit. -/
def isKept (b : Byte) : Bool :=
  decide (b ∈ safeSet) || decide (b ∈ lowerLetters) || decide (b ∈ asciiDigits)

/-- A byte that is percent-encoded: neither in the safe set, nor an ASCII
letter, nor an ASCII digit. -/
def isEscaped (b : Byte) : Bool :=
  !(decide (b ∈ safeSet) || decide (b ∈ lowerLetters) || decide (b ∈ upperLetters)
    || decide (b ∈ asciiDigits))

/-- The image of one byte under the per-byte map of the specification. -/
def byteImage (b : Byte) : GoString :=
  if isKept b then [b]
  else if b ∈ upperLetters then [foldByte b]
  else percentTriplet b

/-- A hexadecimal digit `0-9` or `A-F`. -/
def isHexUpper (b : Byte) : Bool :=
  decide (b ∈ goBytes "0123456789ABCDEF")

/-- The grammar `(safe | '%' H H)*`: a sequence of kept bytes and escape
triplets. -/
inductive TokenEscapes : GoString → Prop
  | nil : TokenEscapes []
  | safe (b : Byte) (rest : GoString) :
      isKept b = true → TokenEscapes rest → TokenEscapes (b :: rest)
  | escape (h1 h2 : Byte) (rest : GoString) :
      isHexUpper h1 = true → isHexUpper h2 = true → TokenEscapes rest →
      TokenEscapes (0x25 :: h1 :: h2 :: rest)

/-- The value of a hexadecimal digit. -/
def hexValue (d : Byte) : Nat :=
  (goBytes "0123456789ABCDEF").indexOf d

/-! ## The request and the header names (transport library) -/

/-- A mutation call received by a request. -/
inductive Call (H : Type) where
  | setHeader (key : GoString) (values : List GoString)
  | warningHandler (handler : H)
  deriving DecidableEq

/-- Modelled from the spec: the request object `rest.Request` of the transport
library, which is not part of this repository.  It holds its headers (at most
one entry per header name), its warning handler (a value of the handler type
`H`), and the mutation calls it has received, oldest first. -/
structure Request (H : Type) where
  headers : List (GoString × List GoString)
  warningHandler : H
  calls : List (Call H)

/-- The values of the header `name`, if the header is present. -/
def Request.header {H : Type} (r : Request H) (name : GoString) : Option (List GoString) :=
  r.headers.lookup name

/-- Modelled from the spec: the method `SetHeader(name, values...)` of the
request, which "replaces any existing values for that header".  For a call
with no values the spec leaves the outcome to the transport and words it as
"set with no values", so here the header is then present with no values; a
transport may instead leave it absent. -/
def Request.SetHeader {H : Type} (r : Request H) (key : GoString) (values : List GoString) :
    Request H :=
  { r with
    headers := (key, values) :: r.headers.filter (fun e => decide (e.1 ≠ key))
    calls := r.calls ++ [Call.setHeader key values] }

/-- Modelled from the spec: the method `WarningHandler(handler)` of the
request, which installs the handler in place of the current one. -/
def Request.WarningHandler {H : Type} (r : Request H) (handler : H) : Request H :=
  { r with
    warningHandler := handler
    calls := r.calls ++ [Call.warningHandler handler] }

/-- A request with no headers that has received no call. -/
def Request.fresh {H : Type} (handler : H) : Request H :=
  { headers := [], warningHandler := handler, calls := [] }

/-- The constants `transport.ImpersonateUserHeader`, `ImpersonateUIDHeader`,
`ImpersonateGroupHeader` and `ImpersonateUserExtraHeaderPrefix`, which the
transport library declares; the code is read with them as parameters. -/
structure HeaderNames where
  ImpersonateUserHeader : GoString
  ImpersonateUIDHeader : GoString
  ImpersonateGroupHeader : GoString
  ImpersonateUserExtraHeaderPrefix : GoString

/-- The user, uid and group header names differ from one another and none of
them starts with the extra prefix. -/
def HeaderNames.Distinct (n : HeaderNames) : Prop :=
  n.ImpersonateUserHeader ≠ n.ImpersonateUIDHeader ∧
  n.ImpersonateUserHeader ≠ n.ImpersonateGroupHeader ∧
  n.ImpersonateUIDHeader ≠ n.ImpersonateGroupHeader ∧
  ¬ n.ImpersonateUserExtraHeaderPrefix <+: n.ImpersonateUserHeader ∧
  ¬ n.ImpersonateUserExtraHeaderPrefix <+: n.ImpersonateUIDHeader ∧
  ¬ n.ImpersonateUserExtraHeaderPrefix <+: n.ImpersonateGroupHeader

instance (n : HeaderNames) : Decidable n.Distinct := by
  unfold HeaderNames.Distinct
  infer_instance

/-- Modelled from the spec: the fixed header names `impersonate-user`,
`impersonate-uid`, `impersonate-group` and the prefix `impersonate-extra-`,
the values of the transport library's constants. -/
def specHeaderNames : HeaderNames :=
  { ImpersonateUserHeader := goBytes "impersonate-user"
    ImpersonateUIDHeader := goBytes "impersonate-uid"
    ImpersonateGroupHeader := goBytes "impersonate-group"
    ImpersonateUserExtraHeaderPrefix := goBytes "impersonate-extra-" }

/-- The descriptor `rest.ImpersonationConfig`.  `Extra` is a Go map: its
entries are listed in the order in which `range` enumerates them in the run at
hand, and their keys are pairwise distinct (`ImpersonationConfig.WellFormed`). -/
structure ImpersonationConfig where
  UserName : GoString
  UID : GoString
  Groups : List GoString
  Extra : List (GoString × List GoString)

/-- The keys of the map `Extra` are pairwise distinct. -/
def ImpersonationConfig.WellFormed (config : ImpersonationConfig) : Prop :=
  (config.Extra.map Prod.fst).Nodup

instance (config : ImpersonationConfig) : Decidable config.WellFormed := by
  unfold ImpersonationConfig.WellFormed
  infer_instance

/-! ## The request modifiers -/

/-- The type `RequestModifier`: a function that modifies a request before it
is sent.  The request is passed by pointer and mutated in place, so a modifier
maps the request before the call to the request after it. -/
abbrev RequestModifier (H : Type) := Request H → Request H

/-- The struct `Options`. -/
structure Options (H : Type) where
  RequestModifiers : List (RequestModifier H)

/-- The function `SetWarningHandler`. -/
def SetWarningHandler {H : Type} (handler : H) : RequestModifier H :=
  fun request => request.WarningHandler handler

/-- The function `Impersonate`. -/
def Impersonate {H : Type} (names : HeaderNames) (config : ImpersonationConfig) :
    RequestModifier H :=
  fun req =>
    let req := req.SetHeader names.ImpersonateUserHeader [config.UserName]
    let req := if config.UID ≠ [] then req.SetHeader names.ImpersonateUIDHeader [config.UID]
      else req
    let req := req.SetHeader names.ImpersonateGroupHeader config.Groups
    config.Extra.foldl
      (fun req kv =>
        req.SetHeader (names.ImpersonateUserExtraHeaderPrefix ++ sanitizeHeaderKey kv.1) kv.2)
      req

/-- The calls that `Impersonate` is described to issue: user, uid when it is
not empty, group, then one call per entry of `Extra`. -/
def impersonateCalls {H : Type} (names : HeaderNames) (config : ImpersonationConfig) :
    List (Call H) :=
  [Call.setHeader names.ImpersonateUserHeader [config.UserName]] ++
  (if config.UID = [] then [] else [Call.setHeader names.ImpersonateUIDHeader [config.UID]]) ++
  [Call.setHeader names.ImpersonateGroupHeader config.Groups] ++
  config.Extra.map (fun kv =>
    Call.setHeader (names.ImpersonateUserExtraHeaderPrefix ++ sanitizeHeaderKey kv.1) kv.2)

/-- The descriptor of the example: user `alice`, no uid, groups `dev` and
`ops`, and the extra entry `Reason` with the value `scale-up`. -/
def aliceConfig : ImpersonationConfig :=
  { UserName := goBytes "alice"
    UID := []
    Groups := [goBytes "dev", goBytes "ops"]
    Extra := [(goBytes "Reason", [goBytes "scale-up"])] }

/-- A descriptor whose two extra keys differ only in case. -/
def caseClashConfig : ImpersonationConfig :=
  { UserName := goBytes "alice"
    UID := []
    Groups := []
    Extra := [(goBytes "A", [goBytes "1"]), (goBytes "a", [goBytes "2"])] }

/-- The descriptor `caseClashConfig` with its map enumerated in the other
order. -/
def caseClashConfigRev : ImpersonationConfig :=
  { caseClashConfig with Extra := caseClashConfig.Extra.reverse }

/-- A descriptor with a uid and two extra keys. -/
def auditConfig : ImpersonationConfig :=
  { UserName := goBytes "bob"
    UID := goBytes "u-17"
    Groups := [goBytes "qa"]
    Extra := [(goBytes "Reason", [goBytes "audit"]), (goBytes "scope id", [goBytes "7"])] }

/-! ## Observing the calls of a modifier, and the modifier pipeline -/

/-- The calls a modifier issues on a request: those the request has recorded
after the ones it had received before. -/
def issuedCalls {H : Type} (m : RequestModifier H) (req : Request H) : List (Call H) :=
  (m req).calls.drop req.calls.length

/-- The value lists of the header-set calls for the header `name` among the
calls `cs`, in the order of the calls. -/
def setCallsFor {H : Type} (name : GoString) (cs : List (Call H)) : List (List GoString) :=
  cs.filterMap (fun c =>
    match c with
    | Call.setHeader key values => if key = name then some values else none
    | Call.warningHandler _ => none)

/-- Modelled from the spec: the application of the modifier pipeline of an
`Options` value to a request, which the client code outside `options.go`
performs before it sends the request: "invoking each Modifier in sequence with
the request as the sole mutable argument", in list order, none skipped. -/
def Options.apply {H : Type} (o : Options H) (req : Request H) : Request H :=
  o.RequestModifiers.foldl (fun r modifier => modifier r) req

/-- A descriptor whose extra map has the empty key. -/
def emptyKeyConfig : ImpersonationConfig :=
  { UserName := goBytes "carol"
    UID := []
    Groups := []
    Extra := [(goBytes "Reason", [goBytes "audit"]), ([], [goBytes "x"])] }

/-! ## Facts about single bytes -/

set_option maxRecDepth 1000000 in
theorem loopBody_eq_byteImage : ∀ b : Byte, loopBody b = byteImage b := by
  decide

set_option maxRecDepth 1000000 in
theorem byteImage_kept : ∀ b : Byte, isKept b = true →
    byteImage b = [b] ∧ isEscaped b = false ∧ foldByte b = b := by
  decide

set_option maxRecDepth 1000000 in
theorem byteImage_folded : ∀ b : Byte, isEscaped b = false →
    byteImage b = [foldByte b] ∧ isKept (foldByte b) = true ∧
    (isKept b = false → foldByte b ≠ b) := by
  decide

set_option maxRecDepth 1000000 in
theorem byteImage_escaped : ∀ b : Byte, isEscaped b = true →
    byteImage b = percentTriplet b ∧ isKept b = false ∧ foldByte b = b := by
  decide

set_option maxRecDepth 1000000 in
theorem percentTriplet_digits : ∀ b : Byte,
    isHexUpper (hexDigitUpper (b.val / 16)) = true ∧
    isHexUpper (hexDigitUpper (b.val % 16)) = true ∧
    16 * hexValue (hexDigitUpper (b.val / 16)) + hexValue (hexDigitUpper (b.val % 16))
      = b.val := by
  decide

set_option maxRecDepth 1000000 in
theorem percentTriplet_not_mem : ∀ b : Byte, isEscaped b = true → b ≠ 0x25 →
    b ∉ percentTriplet b := by
  decide

theorem isKept_percent : isKept 0x25 = false := by decide

theorem isEscaped_percent : isEscaped 0x25 = true := by decide

set_option maxRecDepth 1000000 in
theorem isKept_token : ∀ b : Byte, isKept b = true →
    b ∉ upperLetters ∧ b ≠ 0x20 ∧ b.val < 0x80 ∧ b ≠ 0x25 := by
  decide

/-! ## Properties of `sanitizeHeaderKey` -/

theorem sanitizeLoop_eq (s buf : GoString) :
    sanitizeLoop s buf = buf ++ s.flatMap byteImage := by
  induction s generalizing buf with
  | nil => simp [sanitizeLoop]
  | cons b rest ih =>
    simp [sanitizeLoop, ih, loopBody_eq_byteImage, List.flatMap_cons]

theorem sanitizeHeaderKey_eq_flatMap (s : GoString) :
    sanitizeHeaderKey s = s.flatMap byteImage := by
  simp [sanitizeHeaderKey, sanitizeLoop_eq]

theorem sanitizeHeaderKey_nil : sanitizeHeaderKey [] = [] := rfl

theorem sanitizeHeaderKey_cons (b : Byte) (s : GoString) :
    sanitizeHeaderKey (b :: s) = byteImage b ++ sanitizeHeaderKey s := by
  simp [sanitizeHeaderKey_eq_flatMap, List.flatMap_cons]

theorem sanitizeHeaderKey_append (s t : GoString) :
    sanitizeHeaderKey (s ++ t) = sanitizeHeaderKey s ++ sanitizeHeaderKey t := by
  simp [sanitizeHeaderKey_eq_flatMap, List.flatMap_append]

theorem byteImage_length_pos (b : Byte) : 1 ≤ (byteImage b).length := by
  cases h : isEscaped b with
  | false => simp [(byteImage_folded b h).1]
  | true => simp [(byteImage_escaped b h).1, percentTriplet]

theorem length_le_sanitizeHeaderKey (s : GoString) :
    s.length ≤ (sanitizeHeaderKey s).length := by
  induction s with
  | nil => simp
  | cons b rest ih =>
    have := byteImage_length_pos b
    simp only [sanitizeHeaderKey_cons, List.length_append, List.length_cons]
    omega

theorem sanitizeHeaderKey_of_kept (s : GoString) (h : ∀ b ∈ s, isKept b = true) :
    sanitizeHeaderKey s = s := by
  induction s with
  | nil => rfl
  | cons b rest ih =>
    rw [sanitizeHeaderKey_cons, (byteImage_kept b (h b (List.mem_cons_self _ _))).1,
      ih (fun c hc => h c (List.mem_cons_of_mem _ hc))]
    rfl

theorem kept_of_sanitizeHeaderKey_eq (s : GoString) (h : sanitizeHeaderKey s = s) :
    ∀ b ∈ s, isKept b = true := by
  induction s with
  | nil => simp
  | cons b rest ih =>
    rw [sanitizeHeaderKey_cons] at h
    cases he : isEscaped b with
    | false =>
      obtain ⟨h1, _, h3⟩ := byteImage_folded b he
      rw [h1] at h
      simp only [List.singleton_append, List.cons.injEq] at h
      have hk : isKept b = true := by
        by_contra hn
        exact h3 (by simpa using hn) h.1
      intro c hc
      rcases List.mem_cons.1 hc with rfl | hc
      · exact hk
      · exact ih h.2 c hc
    | true =>
      exfalso
      rw [(byteImage_escaped b he).1] at h
      simp only [percentTriplet, List.cons_append, List.nil_append, List.cons.injEq] at h
      have hl := length_le_sanitizeHeaderKey rest
      have := congrArg List.length h.2
      simp only [List.length_cons] at this
      omega

theorem TokenEscapes.append {s t : GoString} (hs : TokenEscapes s) (ht : TokenEscapes t) :
    TokenEscapes (s ++ t) := by
  induction hs with
  | nil => simpa using ht
  | safe b rest hb _ ih => exact TokenEscapes.safe b _ hb ih
  | escape h1 h2 rest a b _ ih => exact TokenEscapes.escape h1 h2 _ a b ih

theorem TokenEscapes_byteImage (b : Byte) : TokenEscapes (byteImage b) := by
  cases he : isEscaped b with
  | false =>
    obtain ⟨h1, h2, _⟩ := byteImage_folded b he
    rw [h1]
    exact TokenEscapes.safe _ _ h2 TokenEscapes.nil
  | true =>
    rw [(byteImage_escaped b he).1]
    obtain ⟨a, c, _⟩ := percentTriplet_digits b
    exact TokenEscapes.escape _ _ _ a c TokenEscapes.nil

theorem mem_sanitizeHeaderKey_kept (s : GoString) (h : ∀ b ∈ s, isEscaped b = false) :
    ∀ c ∈ sanitizeHeaderKey s, isKept c = true := by
  induction s with
  | nil => simp [sanitizeHeaderKey_nil]
  | cons b rest ih =>
    intro c hc
    rw [sanitizeHeaderKey_cons, (byteImage_folded b (h b (List.mem_cons_self _ _))).1] at hc
    rcases List.mem_cons.1 hc with rfl | hc
    · exact (byteImage_folded b (h b (List.mem_cons_self _ _))).2.1
    · exact ih (fun d hd => h d (List.mem_cons_of_mem _ hd)) c hc

theorem percent_mem_sanitizeHeaderKey (s : GoString) (b : Byte) (hb : b ∈ s)
    (he : isEscaped b = true) : (0x25 : Byte) ∈ sanitizeHeaderKey s := by
  rw [sanitizeHeaderKey_eq_flatMap, List.mem_flatMap]
  exact ⟨b, hb, by rw [(byteImage_escaped b he).1]; simp [percentTriplet]⟩

theorem percentTriplet_injective (b c : Byte) (h : percentTriplet b = percentTriplet c) :
    b = c := by
  simp only [percentTriplet, List.cons.injEq, and_true, true_and] at h
  have hb := (percentTriplet_digits b).2.2
  have hc := (percentTriplet_digits c).2.2
  rw [h.1, h.2] at hb
  exact Fin.ext (hb.symm.trans hc)

/-- The code is prefix-free up to case: equal outputs that start with the
images of `b` and `c` have `b` and `c` equal after case folding, and equal
remainders. -/
theorem byteImage_append_cancel (b c : Byte) (s t : GoString)
    (h : byteImage b ++ s = byteImage c ++ t) : foldByte b = foldByte c ∧ s = t := by
  cases hb : isEscaped b with
  | false =>
    obtain ⟨b1, b2, _⟩ := byteImage_folded b hb
    cases hc : isEscaped c with
    | false =>
      rw [b1, (byteImage_folded c hc).1] at h
      simpa using h
    | true =>
      rw [b1, (byteImage_escaped c hc).1] at h
      simp only [percentTriplet, List.singleton_append, List.cons_append, List.cons.injEq] at h
      rw [h.1, isKept_percent] at b2
      exact absurd b2 (by decide)
  | true =>
    obtain ⟨b1, _, b3⟩ := byteImage_escaped b hb
    cases hc : isEscaped c with
    | false =>
      obtain ⟨c1, c2, _⟩ := byteImage_folded c hc
      rw [b1, c1] at h
      simp only [percentTriplet, List.singleton_append, List.cons_append, List.cons.injEq] at h
      rw [← h.1, isKept_percent] at c2
      exact absurd c2 (by decide)
    | true =>
      obtain ⟨c1, _, c3⟩ := byteImage_escaped c hc
      rw [b1, c1] at h
      have h3 : percentTriplet b = percentTriplet c ∧ s = t := by
        simp only [percentTriplet, List.cons_append, List.nil_append, List.cons.injEq] at h
        simp only [percentTriplet, List.cons.injEq, and_true, true_and]
        exact ⟨⟨h.2.1, h.2.2.1⟩, h.2.2.2⟩
      rw [percentTriplet_injective b c h3.1]
      exact ⟨rfl, h3.2⟩

theorem byteImage_ne_nil (b : Byte) : byteImage b ≠ [] := by
  intro h
  have := byteImage_length_pos b
  rw [h] at this
  simp at this

theorem map_foldByte_eq_of_sanitizeHeaderKey_eq (s t : GoString)
    (h : sanitizeHeaderKey s = sanitizeHeaderKey t) :
    s.map foldByte = t.map foldByte := by
  induction s generalizing t with
  | nil =>
    cases t with
    | nil => rfl
    | cons c t =>
      rw [sanitizeHeaderKey_nil, sanitizeHeaderKey_cons] at h
      exact absurd (List.append_eq_nil.1 h.symm).1 (byteImage_ne_nil c)
  | cons b s ih =>
    cases t with
    | nil =>
      rw [sanitizeHeaderKey_nil, sanitizeHeaderKey_cons] at h
      exact absurd (List.append_eq_nil.1 h).1 (byteImage_ne_nil b)
    | cons c t =>
      rw [sanitizeHeaderKey_cons, sanitizeHeaderKey_cons] at h
      obtain ⟨h1, h2⟩ := byteImage_append_cancel b c _ _ h
      simp [h1, ih t h2]

/-! ### The claims about `sanitizeHeaderKey` -/

/-- C1: for every byte string `s`, `sanitizeHeaderKey s` is the in-order
concatenation of the images of the bytes of `s` under the per-byte map
`byteImage`: a byte of the safe set, a lower-case letter or a digit is kept, an
upper-case letter becomes its lower-case letter, and every other byte becomes
`%` followed by its two upper-case hexadecimal digits. -/
theorem C1_sanitizeHeaderKey_per_byte (s : GoString) :
    sanitizeHeaderKey s = s.flatMap byteImage :=
  sanitizeHeaderKey_eq_flatMap s

/-- C2, as stated, fails: the byte `%` is percent-encoded, and its encoding
`%25` contains `%` itself. -/
theorem C2_counterexample :
    ¬ (∀ b : Byte, isEscaped b = true →
        sanitizeHeaderKey [b] = percentTriplet b ∧ b ∉ sanitizeHeaderKey [b]) := by
  intro h
  exact (h 0x25 (by decide)).2 (by decide)

/-- C2, amended: for every byte `b` that is neither in the safe set, nor a
letter, nor a digit, `sanitizeHeaderKey [b]` is `%` followed by the two
upper-case hexadecimal digits of `b`, and that output contains the byte `b`
itself only when `b` is `%`. -/
theorem C2_escaped_byte (b : Byte) (h : isEscaped b = true) :
    sanitizeHeaderKey [b] = percentTriplet b ∧
    (b ∈ sanitizeHeaderKey [b] ↔ b = 0x25) := by
  have e : sanitizeHeaderKey [b] = percentTriplet b := by
    rw [sanitizeHeaderKey_cons, sanitizeHeaderKey_nil, List.append_nil,
      (byteImage_escaped b h).1]
  refine ⟨e, ?_⟩
  rw [e]
  constructor
  · intro hm
    by_contra hne
    exact percentTriplet_not_mem b h hne hm
  · intro hb
    subst hb
    decide

theorem C2_escaped_byte_witness :
    isEscaped 0x20 = true ∧
    sanitizeHeaderKey [0x20] = percentTriplet 0x20 ∧
    ((0x20 : Byte) ∈ sanitizeHeaderKey [0x20] ↔ (0x20 : Byte) = 0x25) :=
  ⟨by decide, C2_escaped_byte 0x20 (by decide)⟩

/-- C3: for every input, the output of `sanitizeHeaderKey` matches the grammar
`(safe | '%' H H)*`, where `safe` is a byte of the safe set, a lower-case letter
or a digit and `H` is one of `0-9`, `A-F`; a `safe` byte is never an upper-case
letter, a space, a non-ASCII byte or `%`, so these occur only inside an escape
and `%` only as the start of one. -/
theorem C3_output_grammar :
    (∀ s : GoString, TokenEscapes (sanitizeHeaderKey s)) ∧
    (∀ b : Byte, isKept b = true →
      b ∉ upperLetters ∧ b ≠ 0x20 ∧ b.val < 0x80 ∧ b ≠ 0x25) := by
  refine ⟨fun s => ?_, isKept_token⟩
  induction s with
  | nil => exact TokenEscapes.nil
  | cons b rest ih =>
    rw [sanitizeHeaderKey_cons]
    exact (TokenEscapes_byteImage b).append ih

/-- C7: a second pass of `sanitizeHeaderKey` changes nothing exactly when no
byte of the input gets percent-encoded; for `%` the first pass gives `%25` and
the second the different string `%2525`. -/
theorem C7_second_pass :
    (∀ s : GoString, sanitizeHeaderKey (sanitizeHeaderKey s) = sanitizeHeaderKey s ↔
      ∀ b ∈ s, isEscaped b = false) ∧
    sanitizeHeaderKey (goBytes "%") = goBytes "%25" ∧
    sanitizeHeaderKey (sanitizeHeaderKey (goBytes "%")) = goBytes "%2525" ∧
    goBytes "%2525" ≠ goBytes "%25" := by
  refine ⟨fun s => ⟨fun h b hb => ?_, fun h => ?_⟩, by decide, by decide, by decide⟩
  · by_contra hne
    have he : isEscaped b = true := by simpa using hne
    have hk := kept_of_sanitizeHeaderKey_eq _ h 0x25 (percent_mem_sanitizeHeaderKey s b hb he)
    rw [isKept_percent] at hk
    exact absurd hk (by decide)
  · exact sanitizeHeaderKey_of_kept _ (mem_sanitizeHeaderKey_kept s h)

/-- C8: `sanitizeHeaderKey s = s` exactly when every byte of `s` is in the safe
set, a lower-case letter or a digit; for example `a_b-c` is returned
unchanged. -/
theorem C8_fixed_points :
    (∀ s : GoString, sanitizeHeaderKey s = s ↔ ∀ b ∈ s, isKept b = true) ∧
    sanitizeHeaderKey (goBytes "a_b-c") = goBytes "a_b-c" :=
  ⟨fun s => ⟨kept_of_sanitizeHeaderKey_eq s, sanitizeHeaderKey_of_kept s⟩, by decide⟩

/-- C9: `sanitizeHeaderKey "Foo Bar!"` is `foo%20bar!`. -/
theorem C9_example : sanitizeHeaderKey (goBytes "Foo Bar!") = goBytes "foo%20bar!" := by
  decide

/-! ## Properties of the request and of `Impersonate` -/

theorem lookup_filter_ne (l : List (GoString × List GoString)) (k n : GoString) (h : n ≠ k) :
    (l.filter (fun e => decide (e.1 ≠ k))).lookup n = l.lookup n := by
  induction l with
  | nil => rfl
  | cons e l ih =>
    obtain ⟨a, v⟩ := e
    by_cases hak : a = k
    · subst hak
      have hna : (n == a) = false := by simpa using h
      simpa [List.filter_cons, List.lookup_cons, hna] using ih
    · by_cases hna : n = a
      · subst hna
        simp [List.filter_cons, List.lookup_cons, hak]
      · have hna2 : (n == a) = false := by simpa using hna
        simpa [List.filter_cons, List.lookup_cons, hak, hna2] using ih

theorem filter_ne_of_not_mem (l : List (GoString × List GoString)) (k : GoString)
    (h : k ∉ l.map Prod.fst) : l.filter (fun e => decide (e.1 ≠ k)) = l := by
  rw [List.filter_eq_self]
  intro e he
  have : e.1 ≠ k := fun hk => h (hk ▸ List.mem_map_of_mem Prod.fst he)
  simpa using this

theorem header_SetHeader {H : Type} (r : Request H) (k n : GoString) (v : List GoString) :
    (r.SetHeader k v).header n = if n = k then some v else r.header n := by
  unfold Request.header Request.SetHeader
  by_cases h : n = k
  · subst h
    simp [List.lookup_cons]
  · have hb : (n == k) = false := by simpa using h
    simp only [List.lookup_cons, hb, if_neg h]
    exact lookup_filter_ne _ _ _ h

theorem calls_SetHeader {H : Type} (r : Request H) (k : GoString) (v : List GoString) :
    (r.SetHeader k v).calls = r.calls ++ [Call.setHeader k v] := rfl

theorem warningHandler_SetHeader {H : Type} (r : Request H) (k : GoString)
    (v : List GoString) : (r.SetHeader k v).warningHandler = r.warningHandler := rfl

/-- The loop over `Extra` in `Impersonate`, from the request `r`. -/
theorem foldl_calls {H : Type} (p : GoString) (kvs : List (GoString × List GoString))
    (r : Request H) :
    (kvs.foldl (fun req kv => req.SetHeader (p ++ sanitizeHeaderKey kv.1) kv.2) r).calls =
      r.calls ++ kvs.map (fun kv => Call.setHeader (p ++ sanitizeHeaderKey kv.1) kv.2) := by
  induction kvs generalizing r with
  | nil => simp
  | cons kv kvs ih => simp [List.foldl_cons, ih, calls_SetHeader]

theorem foldl_warningHandler {H : Type} (p : GoString)
    (kvs : List (GoString × List GoString)) (r : Request H) :
    (kvs.foldl (fun req kv => req.SetHeader (p ++ sanitizeHeaderKey kv.1) kv.2)
      r).warningHandler = r.warningHandler := by
  induction kvs generalizing r with
  | nil => rfl
  | cons kv kvs ih => simp [List.foldl_cons, ih, warningHandler_SetHeader]

/-- The header lookup after the loop over `Extra`: the last call for a name
wins, and the other names keep their values. -/
theorem foldl_header {H : Type} (p : GoString) (kvs : List (GoString × List GoString))
    (r : Request H) (n : GoString) :
    (kvs.foldl (fun req kv => req.SetHeader (p ++ sanitizeHeaderKey kv.1) kv.2) r).header n =
      ((kvs.map (fun kv => (p ++ sanitizeHeaderKey kv.1, kv.2))).reverse ++
        r.headers).lookup n := by
  induction kvs generalizing r with
  | nil => rfl
  | cons kv kvs ih =>
    rw [List.foldl_cons, ih]
    simp only [List.map_cons, List.reverse_cons, List.append_assoc, List.lookup_append]
    congr 1
    have := header_SetHeader r (p ++ sanitizeHeaderKey kv.1) n kv.2
    unfold Request.header at this
    rw [this]
    by_cases h : n = p ++ sanitizeHeaderKey kv.1
    · subst h
      simp [List.lookup_cons]
    · have hb : (n == p ++ sanitizeHeaderKey kv.1) = false := by simpa using h
      simp [List.lookup_cons, hb, h]

theorem foldl_headers_of_nodup {H : Type} (p : GoString)
    (kvs : List (GoString × List GoString)) (r : Request H)
    (hnd : (kvs.map (fun kv => p ++ sanitizeHeaderKey kv.1)).Nodup)
    (hfresh : ∀ kv ∈ kvs, p ++ sanitizeHeaderKey kv.1 ∉ r.headers.map Prod.fst) :
    (kvs.foldl (fun req kv => req.SetHeader (p ++ sanitizeHeaderKey kv.1) kv.2) r).headers =
      (kvs.map (fun kv => (p ++ sanitizeHeaderKey kv.1, kv.2))).reverse ++ r.headers := by
  induction kvs generalizing r with
  | nil => rfl
  | cons kv kvs ih =>
    rw [List.map_cons, List.nodup_cons] at hnd
    rw [List.foldl_cons, ih _ hnd.2]
    · simp only [Request.SetHeader, List.map_cons, List.reverse_cons, List.append_assoc,
        List.singleton_append]
      rw [filter_ne_of_not_mem _ _ (hfresh kv (List.mem_cons_self _ _))]
    · intro kv2 h2
      simp only [Request.SetHeader, List.map_cons, List.mem_cons, not_or]
      constructor
      · intro he
        exact hnd.1 (he ▸ List.mem_map_of_mem (fun kv => p ++ sanitizeHeaderKey kv.1) h2)
      · intro hm
        have hsub : (r.headers.filter (fun e => decide (e.1 ≠ p ++ sanitizeHeaderKey kv.1))).map
            Prod.fst ⊆ r.headers.map Prod.fst :=
          List.map_subset _ (List.filter_sublist _).subset
        exact hfresh kv2 (List.mem_cons_of_mem _ h2) (hsub hm)

theorem foldl_header_of_other {H : Type} (p : GoString)
    (kvs : List (GoString × List GoString)) (r : Request H) (n : GoString)
    (h : ¬ p <+: n) :
    (kvs.foldl (fun req kv => req.SetHeader (p ++ sanitizeHeaderKey kv.1) kv.2) r).header n =
      r.header n := by
  induction kvs generalizing r with
  | nil => rfl
  | cons kv kvs ih =>
    rw [List.foldl_cons, ih, header_SetHeader, if_neg]
    intro he
    exact h (he ▸ List.prefix_append _ _)

theorem extra_names_nodup (p : GoString) (kvs : List (GoString × List GoString))
    (hk : (kvs.map (fun kv => kv.1.map foldByte)).Nodup) :
    (kvs.map (fun kv => p ++ sanitizeHeaderKey kv.1)).Nodup := by
  rw [List.Nodup, List.pairwise_map] at hk ⊢
  refine hk.imp ?_
  intro a b hab he
  exact hab (map_foldByte_eq_of_sanitizeHeaderKey_eq _ _ (List.append_cancel_left he))

theorem lookup_eq_of_perm {l₁ l₂ : List (GoString × List GoString)} (n : GoString)
    (hp : l₁.Perm l₂) (hnd : (l₁.map Prod.fst).Nodup) : l₁.lookup n = l₂.lookup n := by
  induction hp with
  | nil => rfl
  | cons e _ ih =>
    obtain ⟨a, v⟩ := e
    rw [List.map_cons, List.nodup_cons] at hnd
    simp only [List.lookup_cons, ih hnd.2]
  | swap e1 e2 l =>
    obtain ⟨a, v⟩ := e1
    obtain ⟨b, w⟩ := e2
    simp only [List.map_cons, List.nodup_cons, List.mem_cons, not_or] at hnd
    simp only [List.lookup_cons]
    by_cases h1 : n = a
    · by_cases h2 : n = b
      · exact absurd (h2.symm.trans h1) hnd.1.1
      · have hb : (n == b) = false := by simpa using h2
        have hab : (a == b) = false := by simpa using fun h => hnd.1.1 h.symm
        simp [h1, hab]
    · have ha : (n == a) = false := by simpa using h1
      simp [ha]
  | trans h1 _ ih1 ih2 =>
    exact (ih1 hnd).trans (ih2 ((h1.map Prod.fst).nodup_iff.1 hnd))

/-- The request after the user, uid and group calls of `Impersonate`. -/
theorem Impersonate_eq_foldl {H : Type} (names : HeaderNames) (config : ImpersonationConfig)
    (req : Request H) :
    Impersonate names config req =
      config.Extra.foldl
        (fun req kv =>
          req.SetHeader (names.ImpersonateUserExtraHeaderPrefix ++ sanitizeHeaderKey kv.1) kv.2)
        ((if config.UID ≠ [] then
            (req.SetHeader names.ImpersonateUserHeader [config.UserName]).SetHeader
              names.ImpersonateUIDHeader [config.UID]
          else req.SetHeader names.ImpersonateUserHeader [config.UserName]).SetHeader
          names.ImpersonateGroupHeader config.Groups) := rfl

theorem Impersonate_calls {H : Type} (names : HeaderNames) (config : ImpersonationConfig)
    (req : Request H) :
    (Impersonate names config req).calls = req.calls ++ impersonateCalls names config := by
  rw [Impersonate_eq_foldl, foldl_calls, impersonateCalls]
  by_cases h : config.UID = []
  · simp [h, calls_SetHeader]
  · simp [h, calls_SetHeader]

theorem Impersonate_user_header {H : Type} (names : HeaderNames)
    (config : ImpersonationConfig) (req : Request H) (hn : names.Distinct) :
    (Impersonate names config req).header names.ImpersonateUserHeader =
      some [config.UserName] := by
  obtain ⟨h1, h2, _, h4, _, _⟩ := hn
  rw [Impersonate_eq_foldl, foldl_header_of_other _ _ _ _ h4, header_SetHeader, if_neg h2]
  by_cases h : config.UID = []
  · simp [h, header_SetHeader]
  · simp [h, header_SetHeader, h1]

theorem Impersonate_fresh_headers {H : Type} (names : HeaderNames)
    (config : ImpersonationConfig) (h : H) (hn : names.Distinct)
    (hk : (config.Extra.map (fun kv => kv.1.map foldByte)).Nodup) :
    (Impersonate names config (Request.fresh h)).headers =
      (config.Extra.map (fun kv =>
        (names.ImpersonateUserExtraHeaderPrefix ++ sanitizeHeaderKey kv.1, kv.2))).reverse ++
      ((names.ImpersonateGroupHeader, config.Groups) ::
        ((if config.UID = [] then [] else [(names.ImpersonateUIDHeader, [config.UID])]) ++
          [(names.ImpersonateUserHeader, [config.UserName])])) := by
  obtain ⟨h1, h2, h3, h4, h5, h6⟩ := hn
  have base : ((if config.UID ≠ [] then
            ((Request.fresh h).SetHeader names.ImpersonateUserHeader
              [config.UserName]).SetHeader names.ImpersonateUIDHeader [config.UID]
          else (Request.fresh h).SetHeader names.ImpersonateUserHeader
            [config.UserName]).SetHeader
          names.ImpersonateGroupHeader config.Groups).headers =
      ((names.ImpersonateGroupHeader, config.Groups) ::
        ((if config.UID = [] then [] else [(names.ImpersonateUIDHeader, [config.UID])]) ++
          [(names.ImpersonateUserHeader, [config.UserName])])) := by
    by_cases hu : config.UID = []
    · simp [hu, Request.SetHeader, Request.fresh, h2]
    · simp [hu, Request.SetHeader, Request.fresh, h1, h2, h3]
  rw [Impersonate_eq_foldl, foldl_headers_of_nodup _ _ _ (extra_names_nodup _ _ hk), base]
  intro kv _ hm
  rw [base] at hm
  have hp : ∀ x : GoString, ¬ names.ImpersonateUserExtraHeaderPrefix <+: x →
      names.ImpersonateUserExtraHeaderPrefix ++ sanitizeHeaderKey kv.1 ≠ x :=
    fun x hx he => hx (he ▸ List.prefix_append _ _)
  by_cases hu : config.UID = []
  · simp [hu, hp _ h4, hp _ h6] at hm
  · simp [hu, hp _ h4, hp _ h5, hp _ h6] at hm

/-! ### The claims about `Impersonate` -/

/-- C4: for every descriptor and every request, the modifier returned by
`Impersonate` issues exactly the calls of `impersonateCalls`, in addition to
those the request had received: the user header with the user name, the uid
header with the uid if and only if the uid is not empty, the group header with
the groups, and for each entry of `Extra` the header named by the extra prefix
followed by the sanitized key.  For the descriptor of the example and a request
without headers, the headers afterwards are exactly the user header with
`alice`, the group header with `dev` and `ops` and the extra header `reason`
with `scale-up`, and there is no uid header. -/
theorem C4_impersonate_calls :
    (∀ (H : Type) (names : HeaderNames) (config : ImpersonationConfig) (req : Request H),
      (Impersonate names config req).calls = req.calls ++ impersonateCalls names config) ∧
    (∀ (H : Type) (names : HeaderNames) (h : H), names.Distinct →
      (Impersonate names aliceConfig (Request.fresh h)).headers.Perm
        [(names.ImpersonateUserHeader, [goBytes "alice"]),
         (names.ImpersonateGroupHeader, [goBytes "dev", goBytes "ops"]),
         (names.ImpersonateUserExtraHeaderPrefix ++ goBytes "reason", [goBytes "scale-up"])] ∧
      (Impersonate names aliceConfig (Request.fresh h)).header names.ImpersonateUIDHeader
        = none) := by
  refine ⟨fun H names config req => Impersonate_calls names config req, ?_⟩
  intro H names h hn
  have hs : sanitizeHeaderKey (goBytes "Reason") = goBytes "reason" := by decide
  have hh : (Impersonate names aliceConfig (Request.fresh h)).headers =
      [(names.ImpersonateUserExtraHeaderPrefix ++ goBytes "reason", [goBytes "scale-up"]),
       (names.ImpersonateGroupHeader, [goBytes "dev", goBytes "ops"]),
       (names.ImpersonateUserHeader, [goBytes "alice"])] := by
    rw [Impersonate_fresh_headers names aliceConfig h hn (by decide)]
    simp [aliceConfig, hs]
  obtain ⟨h1, _, h3, _, h5, _⟩ := hn
  have hp : names.ImpersonateUIDHeader ≠
      names.ImpersonateUserExtraHeaderPrefix ++ goBytes "reason" :=
    fun he => h5 (he ▸ List.prefix_append _ _)
  constructor
  · rw [hh]
    exact (List.reverse_perm _).symm
  · rw [Request.header, hh]
    have e1 : (names.ImpersonateUIDHeader ==
        names.ImpersonateUserExtraHeaderPrefix ++ goBytes "reason") = false := by
      simpa using hp
    have e2 : (names.ImpersonateUIDHeader == names.ImpersonateGroupHeader) = false := by
      simpa using h3
    have e3 : (names.ImpersonateUIDHeader == names.ImpersonateUserHeader) = false := by
      simpa using fun he => h1 he.symm
    simp [List.lookup_cons, e1, e2, e3]

theorem C4_impersonate_calls_witness :
    specHeaderNames.Distinct ∧
    (Impersonate specHeaderNames aliceConfig (Request.fresh ())).headers.Perm
      [(specHeaderNames.ImpersonateUserHeader, [goBytes "alice"]),
       (specHeaderNames.ImpersonateGroupHeader, [goBytes "dev", goBytes "ops"]),
       (specHeaderNames.ImpersonateUserExtraHeaderPrefix ++ goBytes "reason",
         [goBytes "scale-up"])] ∧
    (Impersonate specHeaderNames aliceConfig (Request.fresh ())).header
      specHeaderNames.ImpersonateUIDHeader = none :=
  ⟨by decide, C4_impersonate_calls.2 Unit specHeaderNames () (by decide)⟩

/-- C6, as stated, fails: the keys `A` and `a` are distinct, and the value of
the header they share depends on which of the two is enumerated last. -/
theorem C6_counterexample :
    caseClashConfig.WellFormed ∧
    caseClashConfigRev.Extra.Perm caseClashConfig.Extra ∧
    (Impersonate specHeaderNames caseClashConfig (Request.fresh ())).header
        (goBytes "impersonate-extra-a") = some [goBytes "2"] ∧
    (Impersonate specHeaderNames caseClashConfigRev (Request.fresh ())).header
        (goBytes "impersonate-extra-a") = some [goBytes "1"] :=
  ⟨by decide, List.reverse_perm _, by decide, by decide⟩

/-- C6, amended: for every descriptor whose extra keys are pairwise distinct
after folding ASCII upper-case letters to lower case, and every request, the
value of every header and the warning handler after the modifier has run are
the same for every order in which the entries of `Extra` are enumerated. -/
theorem C6_order_independent (H : Type) (names : HeaderNames) (config : ImpersonationConfig)
    (extra2 : List (GoString × List GoString)) (req : Request H)
    (hp : extra2.Perm config.Extra)
    (hk : (config.Extra.map (fun kv => kv.1.map foldByte)).Nodup) :
    (∀ n : GoString,
      (Impersonate names { config with Extra := extra2 } req).header n =
        (Impersonate names config req).header n) ∧
    (Impersonate names { config with Extra := extra2 } req).warningHandler =
      (Impersonate names config req).warningHandler := by
  constructor
  · intro n
    rw [Impersonate_eq_foldl, Impersonate_eq_foldl, foldl_header, foldl_header,
      List.lookup_append, List.lookup_append]
    congr 1
    have hnd := extra_names_nodup names.ImpersonateUserExtraHeaderPrefix _ hk
    refine (lookup_eq_of_perm n ?_ ?_).symm
    · exact (List.reverse_perm _).trans (((hp.map _).symm).trans (List.reverse_perm _).symm)
    · rw [List.map_reverse, List.nodup_reverse, List.map_map]
      exact hnd
  · rw [Impersonate_eq_foldl, Impersonate_eq_foldl, foldl_warningHandler,
      foldl_warningHandler]

theorem C6_order_independent_witness :
    auditConfig.Extra.reverse.Perm auditConfig.Extra ∧
    (auditConfig.Extra.map (fun kv => kv.1.map foldByte)).Nodup ∧
    (∀ n : GoString,
      (Impersonate specHeaderNames { auditConfig with Extra := auditConfig.Extra.reverse }
          (Request.fresh ())).header n =
        (Impersonate specHeaderNames auditConfig (Request.fresh ())).header n) ∧
    (Impersonate specHeaderNames { auditConfig with Extra := auditConfig.Extra.reverse }
        (Request.fresh ())).warningHandler =
      (Impersonate specHeaderNames auditConfig (Request.fresh ())).warningHandler :=
  ⟨List.reverse_perm _, by decide,
    C6_order_independent Unit specHeaderNames auditConfig auditConfig.Extra.reverse
      (Request.fresh ()) (List.reverse_perm _) (by decide)⟩

/-- C10: for every descriptor, with any user name, and every request, after
the modifier returned by `Impersonate` has run the user header holds exactly the
single value `UserName`; the uid, group and extra calls do not overwrite it. -/
theorem C10_user_header (H : Type) (names : HeaderNames) (config : ImpersonationConfig)
    (req : Request H) (hn : names.Distinct) :
    (Impersonate names config req).header names.ImpersonateUserHeader =
      some [config.UserName] :=
  Impersonate_user_header names config req hn

theorem C10_user_header_witness :
    specHeaderNames.Distinct ∧
    (Impersonate specHeaderNames auditConfig
      ((Request.fresh ()).SetHeader specHeaderNames.ImpersonateUserHeader
        [goBytes "root"])).header specHeaderNames.ImpersonateUserHeader =
      some [auditConfig.UserName] :=
  ⟨by decide, C10_user_header Unit specHeaderNames auditConfig _ (by decide)⟩

/-! ## Case folding, concatenation and length -/

set_option maxRecDepth 1000000 in
theorem foldByte_facts : ∀ b : Byte,
    byteImage (foldByte b) = byteImage b ∧
    foldByte b = (if (0x41 : Byte) ≤ b ∧ b ≤ 0x5A then b + 0x20 else b) ∧
    (byteImage b).length = (if isEscaped b = true then 3 else 1) := by
  decide

theorem byteImage_eq_of_foldByte_eq (b c : Byte) (h : foldByte b = foldByte c) :
    byteImage b = byteImage c := by
  rw [← (foldByte_facts b).1, h, (foldByte_facts c).1]

theorem sanitizeHeaderKey_map_foldByte (s : GoString) :
    sanitizeHeaderKey (s.map foldByte) = sanitizeHeaderKey s := by
  induction s with
  | nil => rfl
  | cons b rest ih =>
    rw [List.map_cons, sanitizeHeaderKey_cons, sanitizeHeaderKey_cons, ih,
      (foldByte_facts b).1]

theorem sanitizeHeaderKey_eq_of_map_foldByte_eq (s t : GoString)
    (h : s.map foldByte = t.map foldByte) : sanitizeHeaderKey s = sanitizeHeaderKey t := by
  rw [← sanitizeHeaderKey_map_foldByte s, h, sanitizeHeaderKey_map_foldByte t]

theorem sanitizeHeaderKey_length (s : GoString) :
    (sanitizeHeaderKey s).length = s.length + 2 * s.countP (fun b => isEscaped b) := by
  induction s with
  | nil => rfl
  | cons b rest ih =>
    rw [sanitizeHeaderKey_cons, List.length_append, ih, (foldByte_facts b).2.2,
      List.countP_cons, List.length_cons]
    cases isEscaped b <;> simp <;> omega

/-! ### Further claims about `sanitizeHeaderKey` -/

/-- C16: for all byte strings `s` and `t`, `sanitizeHeaderKey s` and
`sanitizeHeaderKey t` are equal if and only if `s` and `t` are equal after
folding the ASCII upper-case letters to lower case, every other byte being
compared exactly; hence two extra keys give the same header name exactly when
they differ only in the case of ASCII letters. -/
theorem C16_injective_up_to_case :
    (∀ s t : GoString,
      sanitizeHeaderKey s = sanitizeHeaderKey t ↔ s.map foldByte = t.map foldByte) ∧
    (∀ b : Byte, foldByte b = (if (0x41 : Byte) ≤ b ∧ b ≤ 0x5A then b + 0x20 else b)) ∧
    (∀ p k1 k2 : GoString,
      p ++ sanitizeHeaderKey k1 = p ++ sanitizeHeaderKey k2 ↔
        k1.map foldByte = k2.map foldByte) := by
  refine ⟨fun s t => ⟨map_foldByte_eq_of_sanitizeHeaderKey_eq s t,
    sanitizeHeaderKey_eq_of_map_foldByte_eq s t⟩, fun b => (foldByte_facts b).2.1, ?_⟩
  intro p k1 k2
  constructor
  · intro h
    exact map_foldByte_eq_of_sanitizeHeaderKey_eq k1 k2 (List.append_cancel_left h)
  · intro h
    rw [sanitizeHeaderKey_eq_of_map_foldByte_eq k1 k2 h]

/-- C18: `sanitizeHeaderKey` distributes over concatenation, for all byte
strings; for instance the two bytes of the UTF-8 encoding of `é` are encoded
one by one, whether they are given together or apart. -/
theorem C18_distributes_over_append :
    (∀ a b : GoString,
      sanitizeHeaderKey (a ++ b) = sanitizeHeaderKey a ++ sanitizeHeaderKey b) ∧
    goBytes "é" = [0xC3, 0xA9] ∧
    sanitizeHeaderKey (goBytes "é") = goBytes "%C3%A9" ∧
    sanitizeHeaderKey [0xC3] ++ sanitizeHeaderKey [0xA9] = goBytes "%C3%A9" :=
  ⟨sanitizeHeaderKey_append, by decide, by decide, by decide⟩

/-- C19: the length of `sanitizeHeaderKey s` is the length of `s` plus twice the
number of bytes of `s` that are neither in the safe set, nor ASCII letters, nor
ASCII digits; hence it lies between the length of `s` and three times it. -/
theorem C19_output_length (s : GoString) :
    (sanitizeHeaderKey s).length = s.length + 2 * s.countP (fun b => isEscaped b) ∧
    s.length ≤ (sanitizeHeaderKey s).length ∧
    (sanitizeHeaderKey s).length ≤ 3 * s.length := by
  have h := sanitizeHeaderKey_length s
  have hc : s.countP (fun b => isEscaped b) ≤ s.length := List.countP_le_length _
  omega

/-! ## Calls, frame and repeated invocation of `Impersonate` -/

theorem issuedCalls_Impersonate {H : Type} (names : HeaderNames)
    (config : ImpersonationConfig) (req : Request H) :
    issuedCalls (Impersonate names config) req = impersonateCalls names config := by
  rw [issuedCalls, Impersonate_calls, List.drop_left]

theorem setCallsFor_append {H : Type} (name : GoString) (cs ds : List (Call H)) :
    setCallsFor name (cs ++ ds) = setCallsFor name cs ++ setCallsFor name ds := by
  simp [setCallsFor, List.filterMap_append]

theorem setCallsFor_single {H : Type} (name key : GoString) (values : List GoString) :
    setCallsFor name [(Call.setHeader key values : Call H)] =
      if key = name then [values] else [] := by
  by_cases h : key = name <;> simp [setCallsFor, List.filterMap_cons, h]

theorem setCallsFor_extra {H : Type} (p name : GoString)
    (kvs : List (GoString × List GoString)) (h : ¬ p <+: name) :
    setCallsFor name
      (kvs.map (fun kv => (Call.setHeader (p ++ sanitizeHeaderKey kv.1) kv.2 : Call H))) =
      [] := by
  induction kvs with
  | nil => rfl
  | cons kv kvs ih =>
    have hne : p ++ sanitizeHeaderKey kv.1 ≠ name := fun he => h (he ▸ List.prefix_append _ _)
    rw [List.map_cons, ← List.singleton_append, setCallsFor_append, setCallsFor_single,
      if_neg hne, ih]
    rfl

theorem foldl_header_of_forall_ne {H : Type} (p : GoString)
    (kvs : List (GoString × List GoString)) (r : Request H) (n : GoString)
    (h : ∀ kv ∈ kvs, p ++ sanitizeHeaderKey kv.1 ≠ n) :
    (kvs.foldl (fun req kv => req.SetHeader (p ++ sanitizeHeaderKey kv.1) kv.2) r).header n =
      r.header n := by
  induction kvs generalizing r with
  | nil => rfl
  | cons kv kvs ih =>
    rw [List.foldl_cons, ih _ (fun kv2 h2 => h kv2 (List.mem_cons_of_mem _ h2)),
      header_SetHeader, if_neg (fun he => h kv (List.mem_cons_self _ _) he.symm)]

/-- The request before the loop over `Extra`: after the user, uid and group
calls. -/
theorem base_header {H : Type} (names : HeaderNames) (config : ImpersonationConfig)
    (req : Request H) (n : GoString) :
    ((if config.UID ≠ [] then
        (req.SetHeader names.ImpersonateUserHeader [config.UserName]).SetHeader
          names.ImpersonateUIDHeader [config.UID]
      else req.SetHeader names.ImpersonateUserHeader [config.UserName]).SetHeader
      names.ImpersonateGroupHeader config.Groups).header n =
    if n = names.ImpersonateGroupHeader then some config.Groups
    else if config.UID ≠ [] ∧ n = names.ImpersonateUIDHeader then some [config.UID]
    else if n = names.ImpersonateUserHeader then some [config.UserName]
    else req.header n := by
  rw [header_SetHeader]
  by_cases hg : n = names.ImpersonateGroupHeader
  · simp [hg]
  · rw [if_neg hg, if_neg hg]
    by_cases hu : config.UID = []
    · simp [hu, header_SetHeader]
    · by_cases hi : n = names.ImpersonateUIDHeader
      · simp [hu, hi, header_SetHeader]
      · simp [hu, hi, header_SetHeader]

theorem Impersonate_warningHandler {H : Type} (names : HeaderNames)
    (config : ImpersonationConfig) (req : Request H) :
    (Impersonate names config req).warningHandler = req.warningHandler := by
  rw [Impersonate_eq_foldl, foldl_warningHandler, warningHandler_SetHeader]
  by_cases hu : config.UID = []
  · simp [hu, warningHandler_SetHeader]
  · simp [hu, warningHandler_SetHeader]

/-- The header lookup after `Impersonate`: the value set by the modifier, if
it has set the header, and the earlier value otherwise. -/
theorem Impersonate_header {H : Type} (names : HeaderNames) (config : ImpersonationConfig)
    (req : Request H) (n : GoString) :
    (Impersonate names config req).header n =
      (((config.Extra.map (fun kv =>
          (names.ImpersonateUserExtraHeaderPrefix ++ sanitizeHeaderKey kv.1, kv.2))).reverse.lookup
          n).or
        (if n = names.ImpersonateGroupHeader then some config.Groups
         else if config.UID ≠ [] ∧ n = names.ImpersonateUIDHeader then some [config.UID]
         else if n = names.ImpersonateUserHeader then some [config.UserName]
         else none)).or (req.header n) := by
  rw [Impersonate_eq_foldl, foldl_header, List.lookup_append]
  have hb := base_header names config req n
  unfold Request.header at hb
  rw [hb, Request.header]
  cases (config.Extra.map (fun kv =>
      (names.ImpersonateUserExtraHeaderPrefix ++ sanitizeHeaderKey kv.1, kv.2))).reverse.lookup n
    with
  | some v => rfl
  | none =>
    simp only [Option.none_or]
    split_ifs <;> rfl

theorem extra_lookup_perm (p n : GoString) (kvs kvs2 : List (GoString × List GoString))
    (hp : kvs2.Perm kvs) (hk : (kvs.map (fun kv => kv.1.map foldByte)).Nodup) :
    (kvs2.map (fun kv => (p ++ sanitizeHeaderKey kv.1, kv.2))).reverse.lookup n =
      (kvs.map (fun kv => (p ++ sanitizeHeaderKey kv.1, kv.2))).reverse.lookup n := by
  refine (lookup_eq_of_perm n ?_ ?_).symm
  · exact (List.reverse_perm _).trans (((hp.map _).symm).trans (List.reverse_perm _).symm)
  · rw [List.map_reverse, List.nodup_reverse, List.map_map]
    exact extra_names_nodup p kvs hk

theorem Impersonate_header_perm {H : Type} (names : HeaderNames)
    (config : ImpersonationConfig) (extra2 : List (GoString × List GoString))
    (req : Request H) (n : GoString) (hp : extra2.Perm config.Extra)
    (hk : (config.Extra.map (fun kv => kv.1.map foldByte)).Nodup) :
    (Impersonate names { config with Extra := extra2 } req).header n =
      (Impersonate names config req).header n := by
  rw [Impersonate_header, Impersonate_header, extra_lookup_perm _ n _ _ hp hk]

theorem Impersonate_header_twice {H : Type} (names : HeaderNames)
    (config : ImpersonationConfig) (req : Request H) (n : GoString) :
    (Impersonate names config (Impersonate names config req)).header n =
      (Impersonate names config req).header n := by
  rw [Impersonate_header names config (Impersonate names config req), Impersonate_header]
  generalize ((config.Extra.map (fun kv =>
      (names.ImpersonateUserExtraHeaderPrefix ++ sanitizeHeaderKey kv.1, kv.2))).reverse.lookup
      n).or
    (if n = names.ImpersonateGroupHeader then some config.Groups
     else if config.UID ≠ [] ∧ n = names.ImpersonateUIDHeader then some [config.UID]
     else if n = names.ImpersonateUserHeader then some [config.UserName]
     else none) = x
  cases x <;> rfl

theorem sanitizeHeaderKey_eq_nil (k : GoString) (h : sanitizeHeaderKey k = []) : k = [] := by
  cases k with
  | nil => rfl
  | cons b rest =>
    rw [sanitizeHeaderKey_cons] at h
    exact absurd (List.append_eq_nil.1 h).1 (byteImage_ne_nil b)

theorem foldl_header_empty_key {H : Type} (p : GoString) (vs : List GoString)
    (kvs : List (GoString × List GoString)) (r : Request H)
    (hnd : (kvs.map Prod.fst).Nodup) (hm : ([], vs) ∈ kvs) :
    (kvs.foldl (fun req kv => req.SetHeader (p ++ sanitizeHeaderKey kv.1) kv.2) r).header p =
      some vs := by
  induction kvs generalizing r with
  | nil => simp at hm
  | cons kv kvs ih =>
    rw [List.map_cons, List.nodup_cons] at hnd
    rw [List.foldl_cons]
    rcases List.mem_cons.1 hm with he | hm2
    · subst he
      rw [foldl_header_of_forall_ne, header_SetHeader]
      · simp [sanitizeHeaderKey_nil]
      · intro kv2 h2 he
        have hs : sanitizeHeaderKey kv2.1 = [] := by simpa using he
        have hk : kv2.1 = [] := sanitizeHeaderKey_eq_nil _ hs
        have hmem : kv2.1 ∈ kvs.map Prod.fst := List.mem_map_of_mem Prod.fst h2
        rw [hk] at hmem
        exact hnd.1 hmem
    · exact ih _ hnd.2 hm2

/-! ### Further claims about `Impersonate` -/

/-- C11: for every descriptor and every request, if the uid is not empty then
after the modifier the uid header holds exactly the uid; if the uid is empty,
the modifier issues no set call for the uid header and the value of that header,
present or absent, is the one the request had before. -/
theorem C11_uid_header (H : Type) (names : HeaderNames) (config : ImpersonationConfig)
    (req : Request H) (hn : names.Distinct) :
    (config.UID ≠ [] →
      (Impersonate names config req).header names.ImpersonateUIDHeader =
        some [config.UID]) ∧
    (config.UID = [] →
      setCallsFor names.ImpersonateUIDHeader (issuedCalls (Impersonate names config) req) = [] ∧
      (Impersonate names config req).header names.ImpersonateUIDHeader =
        req.header names.ImpersonateUIDHeader) := by
  obtain ⟨h1, h2, h3, _, h5, _⟩ := hn
  have hh : (Impersonate names config req).header names.ImpersonateUIDHeader =
      if config.UID ≠ [] then some [config.UID] else req.header names.ImpersonateUIDHeader := by
    rw [Impersonate_eq_foldl, foldl_header_of_other _ _ _ _ h5, base_header, if_neg h3]
    by_cases hu : config.UID = []
    · have h1b : names.ImpersonateUIDHeader ≠ names.ImpersonateUserHeader :=
        fun he => h1 he.symm
      simp [hu, h1b]
    · simp [hu]
  refine ⟨fun hu => by rw [hh, if_pos hu], fun hu => ⟨?_, by rw [hh, if_neg (not_not.2 hu)]⟩⟩
  rw [issuedCalls_Impersonate, impersonateCalls, if_pos hu, setCallsFor_append,
    setCallsFor_append, setCallsFor_append, setCallsFor_single, setCallsFor_single,
    setCallsFor_extra _ _ _ h5, if_neg h1, if_neg (fun he => h3 he.symm)]
  rfl

theorem C11_uid_header_witness :
    specHeaderNames.Distinct ∧
    auditConfig.UID ≠ [] ∧
    (Impersonate specHeaderNames auditConfig (Request.fresh ())).header
      specHeaderNames.ImpersonateUIDHeader = some [auditConfig.UID] ∧
    aliceConfig.UID = [] ∧
    setCallsFor specHeaderNames.ImpersonateUIDHeader
      (issuedCalls (Impersonate specHeaderNames aliceConfig)
        ((Request.fresh ()).SetHeader specHeaderNames.ImpersonateUIDHeader [goBytes "u-1"])) =
      [] ∧
    (Impersonate specHeaderNames aliceConfig
      ((Request.fresh ()).SetHeader specHeaderNames.ImpersonateUIDHeader
        [goBytes "u-1"])).header specHeaderNames.ImpersonateUIDHeader =
      ((Request.fresh ()).SetHeader specHeaderNames.ImpersonateUIDHeader
        [goBytes "u-1"]).header specHeaderNames.ImpersonateUIDHeader :=
  ⟨by decide, by decide,
    (C11_uid_header Unit specHeaderNames auditConfig (Request.fresh ()) (by decide)).1
      (by decide),
    rfl,
    (C11_uid_header Unit specHeaderNames aliceConfig _ (by decide)).2 rfl⟩

/-- C12: for every descriptor and every request, the modifier issues exactly
one set call for the group header, and it carries the whole list `Groups` in its
order; when `Groups` is empty the call is still issued, with no values, and the
header is set with no values. -/
theorem C12_group_header (H : Type) (names : HeaderNames) (config : ImpersonationConfig)
    (req : Request H) (hn : names.Distinct) :
    setCallsFor names.ImpersonateGroupHeader (issuedCalls (Impersonate names config) req) =
      [config.Groups] ∧
    (config.Groups = [] →
      setCallsFor names.ImpersonateGroupHeader (issuedCalls (Impersonate names config) req) =
        [[]] ∧
      (Impersonate names config req).header names.ImpersonateGroupHeader = some []) ∧
    (Impersonate names config req).header names.ImpersonateGroupHeader =
      some config.Groups := by
  obtain ⟨_, h2, h3, _, _, h6⟩ := hn
  have hc : setCallsFor names.ImpersonateGroupHeader
      (issuedCalls (Impersonate names config) req) = [config.Groups] := by
    rw [issuedCalls_Impersonate, impersonateCalls, setCallsFor_append, setCallsFor_append,
      setCallsFor_append, setCallsFor_single, setCallsFor_single,
      setCallsFor_extra _ _ _ h6, if_neg h2, if_pos rfl]
    by_cases hu : config.UID = []
    · simp [hu, setCallsFor]
    · simp [hu, setCallsFor, h3]
  have hh : (Impersonate names config req).header names.ImpersonateGroupHeader =
      some config.Groups := by
    rw [Impersonate_eq_foldl, foldl_header_of_other _ _ _ _ h6, base_header, if_pos rfl]
  exact ⟨hc, fun hg => ⟨by rw [hc, hg], by rw [hh, hg]⟩, hh⟩

theorem C12_group_header_witness :
    specHeaderNames.Distinct ∧
    emptyKeyConfig.Groups = [] ∧
    setCallsFor specHeaderNames.ImpersonateGroupHeader
      (issuedCalls (Impersonate specHeaderNames emptyKeyConfig) (Request.fresh ())) =
      [[]] ∧
    (Impersonate specHeaderNames emptyKeyConfig (Request.fresh ())).header
      specHeaderNames.ImpersonateGroupHeader = some [] ∧
    setCallsFor specHeaderNames.ImpersonateGroupHeader
      (issuedCalls (Impersonate specHeaderNames auditConfig) (Request.fresh ())) =
      [auditConfig.Groups] :=
  ⟨by decide, rfl,
    ((C12_group_header Unit specHeaderNames emptyKeyConfig (Request.fresh ())
      (by decide)).2.1 rfl).1,
    ((C12_group_header Unit specHeaderNames emptyKeyConfig (Request.fresh ())
      (by decide)).2.1 rfl).2,
    (C12_group_header Unit specHeaderNames auditConfig (Request.fresh ()) (by decide)).1⟩

/-- C13: `sanitizeHeaderKey` of the empty string is the empty string, and for
a descriptor whose extra map has the empty key, the modifier issues a set call
for the header named by the bare extra prefix with the values of that key, and
that header holds these values afterwards. -/
theorem C13_empty_key :
    sanitizeHeaderKey [] = [] ∧
    (∀ (H : Type) (names : HeaderNames) (config : ImpersonationConfig) (req : Request H)
      (vs : List GoString), config.WellFormed → ([], vs) ∈ config.Extra →
      Call.setHeader (names.ImpersonateUserExtraHeaderPrefix ++ []) vs ∈
        issuedCalls (Impersonate names config) req ∧
      (Impersonate names config req).header (names.ImpersonateUserExtraHeaderPrefix ++ []) =
        some vs) := by
  refine ⟨rfl, ?_⟩
  intro H names config req vs hw hm
  constructor
  · rw [issuedCalls_Impersonate, impersonateCalls]
    refine List.mem_append_right _ (List.mem_map.2 ⟨([], vs), hm, ?_⟩)
    rw [sanitizeHeaderKey_nil]
  · rw [List.append_nil, Impersonate_eq_foldl]
    exact foldl_header_empty_key _ vs _ _ hw hm

theorem C13_empty_key_witness :
    emptyKeyConfig.WellFormed ∧ ([], [goBytes "x"]) ∈ emptyKeyConfig.Extra ∧
    Call.setHeader (specHeaderNames.ImpersonateUserExtraHeaderPrefix ++ []) [goBytes "x"] ∈
      issuedCalls (Impersonate specHeaderNames emptyKeyConfig) (Request.fresh ()) ∧
    (Impersonate specHeaderNames emptyKeyConfig (Request.fresh ())).header
      (specHeaderNames.ImpersonateUserExtraHeaderPrefix ++ []) = some [goBytes "x"] :=
  ⟨by decide, by decide,
    C13_empty_key.2 Unit specHeaderNames emptyKeyConfig (Request.fresh ()) [goBytes "x"]
      (by decide) (by decide)⟩

/-- C14, as stated, fails: the map iteration order is not fixed, and for a
descriptor whose keys `A` and `a` share a header name a second invocation that
enumerates the entries in the other order changes the value of that header. -/
theorem C14_counterexample :
    caseClashConfig.WellFormed ∧
    caseClashConfigRev.Extra.Perm caseClashConfig.Extra ∧
    (Impersonate specHeaderNames caseClashConfig (Request.fresh ())).header
        (goBytes "impersonate-extra-a") = some [goBytes "2"] ∧
    (Impersonate specHeaderNames caseClashConfigRev
      (Impersonate specHeaderNames caseClashConfig (Request.fresh ()))).header
        (goBytes "impersonate-extra-a") = some [goBytes "1"] :=
  ⟨by decide, List.reverse_perm _, by decide, by decide⟩

/-- C14, amended: when the two invocations enumerate the entries of `Extra` in
the same order, or when the extra keys are pairwise distinct after folding
ASCII upper-case letters to lower case, invoking the modifier twice in
succession leaves the value of every header and the warning handler as they
are after invoking it once, and invoking it on two requests with the same
headers and warning handler gives the same value of every header and the same
warning handler. -/
theorem C14_idempotent :
    (∀ (H : Type) (names : HeaderNames) (config : ImpersonationConfig) (req : Request H),
      (∀ n : GoString,
        (Impersonate names config (Impersonate names config req)).header n =
          (Impersonate names config req).header n) ∧
      (Impersonate names config (Impersonate names config req)).warningHandler =
        (Impersonate names config req).warningHandler ∧
      (∀ req2 : Request H, (∀ n : GoString, req2.header n = req.header n) →
        req2.warningHandler = req.warningHandler →
        (∀ n : GoString,
          (Impersonate names config req2).header n = (Impersonate names config req).header n) ∧
        (Impersonate names config req2).warningHandler =
          (Impersonate names config req).warningHandler)) ∧
    (∀ (H : Type) (names : HeaderNames) (config : ImpersonationConfig)
      (extra2 : List (GoString × List GoString)) (req : Request H),
      extra2.Perm config.Extra →
      (config.Extra.map (fun kv => kv.1.map foldByte)).Nodup →
      (∀ n : GoString,
        (Impersonate names { config with Extra := extra2 }
          (Impersonate names config req)).header n =
          (Impersonate names config req).header n) ∧
      (Impersonate names { config with Extra := extra2 }
          (Impersonate names config req)).warningHandler =
        (Impersonate names config req).warningHandler ∧
      (∀ req2 : Request H, (∀ n : GoString, req2.header n = req.header n) →
        req2.warningHandler = req.warningHandler →
        (∀ n : GoString,
          (Impersonate names { config with Extra := extra2 } req2).header n =
            (Impersonate names config req).header n) ∧
        (Impersonate names { config with Extra := extra2 } req2).warningHandler =
          (Impersonate names config req).warningHandler)) := by
  constructor
  · intro H names config req
    refine ⟨fun n => Impersonate_header_twice names config req n, ?_, ?_⟩
    · rw [Impersonate_warningHandler]
    · intro req2 hh hw
      refine ⟨fun n => ?_, ?_⟩
      · rw [Impersonate_header, Impersonate_header, hh n]
      · rw [Impersonate_warningHandler, Impersonate_warningHandler, hw]
  · intro H names config extra2 req hp hk
    refine ⟨fun n => ?_, ?_, ?_⟩
    · rw [Impersonate_header_perm names config extra2 _ n hp hk]
      exact Impersonate_header_twice names config req n
    · rw [Impersonate_warningHandler]
    · intro req2 hh hw
      refine ⟨fun n => ?_, ?_⟩
      · rw [Impersonate_header_perm names config extra2 _ n hp hk, Impersonate_header,
          Impersonate_header, hh n]
      · rw [Impersonate_warningHandler, Impersonate_warningHandler, hw]

theorem C14_idempotent_witness :
    auditConfig.Extra.reverse.Perm auditConfig.Extra ∧
    (auditConfig.Extra.map (fun kv => kv.1.map foldByte)).Nodup ∧
    (∀ n : GoString,
      (Impersonate specHeaderNames { auditConfig with Extra := auditConfig.Extra.reverse }
        (Impersonate specHeaderNames auditConfig (Request.fresh ()))).header n =
        (Impersonate specHeaderNames auditConfig (Request.fresh ())).header n) :=
  ⟨List.reverse_perm _, by decide,
    (C14_idempotent.2 Unit specHeaderNames auditConfig auditConfig.Extra.reverse
      (Request.fresh ()) (List.reverse_perm _) (by decide)).1⟩

/-- C15: applying the modifier list `[SetWarningHandler h, Impersonate d]` of
an `Options` value to a request in list order adds to its trace of calls the
installation of the warning handler `h` first, followed by the header-set calls
of the impersonation in the order user, uid (only if it is not empty), group,
then the extras; nothing is skipped or reordered. -/
theorem C15_pipeline_trace (H : Type) (names : HeaderNames) (h : H)
    (d : ImpersonationConfig) (req : Request H) :
    (Options.apply { RequestModifiers := [SetWarningHandler h, Impersonate names d] }
      req).calls =
      req.calls ++
        ([Call.warningHandler h] ++
          [Call.setHeader names.ImpersonateUserHeader [d.UserName]] ++
          (if d.UID = [] then [] else [Call.setHeader names.ImpersonateUIDHeader [d.UID]]) ++
          [Call.setHeader names.ImpersonateGroupHeader d.Groups] ++
          d.Extra.map (fun kv =>
            Call.setHeader (names.ImpersonateUserExtraHeaderPrefix ++ sanitizeHeaderKey kv.1)
              kv.2)) ∧
    (Options.apply { RequestModifiers := [SetWarningHandler h, Impersonate names d] }
      req).warningHandler = h := by
  constructor
  · show (Impersonate names d (SetWarningHandler h req)).calls = _
    rw [Impersonate_calls, impersonateCalls]
    simp [SetWarningHandler, Request.WarningHandler]
  · show (Impersonate names d (SetWarningHandler h req)).warningHandler = _
    rw [Impersonate_warningHandler]
    rfl

/-- C17: the modifier changes nothing but the impersonation headers: the
warning handler is unchanged, and every header whose name is not the user
header, the uid header, the group header or the extra prefix followed by the
sanitized form of a key of `Extra` has the same value after the call as
before. -/
theorem C17_frame :
    (∀ (H : Type) (names : HeaderNames) (config : ImpersonationConfig) (req : Request H),
      (Impersonate names config req).warningHandler = req.warningHandler) ∧
    (∀ (H : Type) (names : HeaderNames) (config : ImpersonationConfig) (req : Request H)
      (n : GoString),
      n ≠ names.ImpersonateUserHeader → n ≠ names.ImpersonateUIDHeader →
      n ≠ names.ImpersonateGroupHeader →
      (∀ kv ∈ config.Extra,
        n ≠ names.ImpersonateUserExtraHeaderPrefix ++ sanitizeHeaderKey kv.1) →
      (Impersonate names config req).header n = req.header n) := by
  refine ⟨fun H names config req => Impersonate_warningHandler names config req, ?_⟩
  intro H names config req n h1 h2 h3 h4
  rw [Impersonate_eq_foldl,
    foldl_header_of_forall_ne _ _ _ _ (fun kv hkv he => h4 kv hkv he.symm), base_header,
    if_neg h3, if_neg (fun hc => h2 hc.2), if_neg h1]

theorem C17_frame_witness :
    goBytes "accept" ≠ specHeaderNames.ImpersonateUserHeader ∧
    goBytes "accept" ≠ specHeaderNames.ImpersonateUIDHeader ∧
    goBytes "accept" ≠ specHeaderNames.ImpersonateGroupHeader ∧
    (∀ kv ∈ auditConfig.Extra,
      goBytes "accept" ≠
        specHeaderNames.ImpersonateUserExtraHeaderPrefix ++ sanitizeHeaderKey kv.1) ∧
    (Impersonate specHeaderNames auditConfig
      ((Request.fresh ()).SetHeader (goBytes "accept") [goBytes "json"])).header
        (goBytes "accept") =
      ((Request.fresh ()).SetHeader (goBytes "accept") [goBytes "json"]).header
        (goBytes "accept") :=
  ⟨by decide, by decide, by decide, by decide,
    C17_frame.2 Unit specHeaderNames auditConfig _ (goBytes "accept")
      (by decide) (by decide) (by decide) (by decide)⟩

end Lasso
